import Mathlib

/-!
Verification of the annotation pipeline in `translateAndSummaryManyWord.py`
(repository `webCrawlAndProcess`).

The pipeline's external collaborators are modelled as function parameters:

* `tok : String → List String` — the BART tokenizer (`TOKENIZER.tokenize`);
* `sentTok : String → List String` — NLTK `sent_tokenize`;
* `wordTok : String → List String` — NLTK `word_tokenize`;
* `summ : List String → List String` — the summarization backend
  (`SUMMARIZER`), one summary text per input text;
* `trans : String → Option String` — the translation backend
  (`GoogleTranslator.translate`); `none` models a raised exception.

Documents are modelled as ordered lists of paragraphs; a paragraph carries
its original text plus the list of runs appended by the pipeline.
-/

namespace WebCrawl

/-- A formatted text run as appended by `para.add_run` plus `set_yahei`. -/
structure Run where
  text : String
  font : String
  bold : Bool
  size : Nat
deriving DecidableEq, Repr

/-- A paragraph of a docx document: its text plus the runs appended to it. -/
structure Paragraph where
  text : String
  runs : List Run
deriving DecidableEq, Repr

/-- Embeds the constant `MIN_WORDS = 40`. -/
def MIN_WORDS : Nat := 40

/-- Embeds the constant `MAX_INPUT_TOKENS = 1024`. -/
def MAX_INPUT_TOKENS : Nat := 1024

/-- Embeds the constant `BATCH_SIZE = 4`. -/
def BATCH_SIZE : Nat := 4

/-- Embeds the constant `YAHEI = "Microsoft YaHei"`. -/
def YAHEI : String := "Microsoft YaHei"

/-- Python `str.strip()`: drop whitespace from both ends of the string. -/
def pyStrip (s : String) : String :=
  String.mk (((s.data.dropWhile Char.isWhitespace).reverse.dropWhile
    Char.isWhitespace).reverse)

/-- Embeds `translate_en2zh`: empty-after-strip text short-circuits to `""`;
otherwise the backend is called, and a raised exception (`none`) yields the
original text. -/
def translate_en2zh (trans : String → Option String) (text : String) : String :=
  if pyStrip text = "" then ""
  else
    match trans text with
    | some zh => zh
    | none => text

/-- Instrumented `translate_en2zh`: same result, paired with the number of
translation-backend invocations performed (the backend is consulted exactly
when the stripped text is non-empty). -/
def translate_en2zhI (trans : String → Option String) (text : String) :
    String × Nat :=
  if pyStrip text = "" then ("", 0)
  else
    match trans text with
    | some zh => (zh, 1)
    | none => (text, 1)

theorem translate_en2zhI_fst (trans : String → Option String) (text : String) :
    (translate_en2zhI trans text).1 = translate_en2zh trans text := by
  unfold translate_en2zhI translate_en2zh
  split
  · rfl
  · cases trans text <;> rfl

/-- Embeds the accumulation loop of `truncate_text_by_sentences`: starting
from running count `cur`, keep each sentence whose token length still fits
the budget and stop at the first sentence whose inclusion would exceed it. -/
def truncLoop (tok : String → List String) (maxTokens : Nat) :
    Nat → List String → List String
  | _, [] => []
  | cur, s :: rest =>
    if maxTokens < cur + (tok s).length then []
    else s :: truncLoop tok maxTokens (cur + (tok s).length) rest

/-- The sentences kept by `truncate_text_by_sentences` for a given text. -/
def keptSentences (tok sentTok : String → List String) (text : String)
    (maxTokens : Nat) : List String :=
  truncLoop tok maxTokens 0 (sentTok text)

/-- Embeds `" ".join(kept)`. -/
def joinSpace : List String → String
  | [] => ""
  | [s] => s
  | s :: rest => s ++ " " ++ joinSpace rest

/-- Embeds `truncate_text_by_sentences`: sentence-level truncation keeping a
prefix of sentences within the token budget; if nothing is kept the original
text is returned unchanged, otherwise the kept sentences are joined with
single spaces and `"..."` is appended. -/
def truncate_text_by_sentences (tok sentTok : String → List String)
    (text : String) (maxTokens : Nat) : String :=
  let kept := keptSentences tok sentTok text maxTokens
  if kept.isEmpty then text else joinSpace kept ++ "..."

/-- Embeds the `Candidate` record: paragraph index, possibly-truncated source
text, and the (initially empty) summary. -/
structure Candidate where
  idx : Nat
  truncated : String
  summary_zh : String
deriving DecidableEq, Repr

/-- Embeds `Candidate.__init__`: truncation is applied only when the full
text tokenizes to more than `MAX_INPUT_TOKENS` tokens. -/
def Candidate.make (tok sentTok : String → List String) (para_idx : Nat)
    (text : String) : Candidate :=
  { idx := para_idx
    truncated :=
      if MAX_INPUT_TOKENS < (tok text).length then
        truncate_text_by_sentences tok sentTok text MAX_INPUT_TOKENS
      else text
    summary_zh := "" }

/-- Python `str.isalpha` on a token: non-empty and every character
alphabetic. -/
def pyIsAlpha (s : String) : Bool :=
  !s.isEmpty && s.data.all Char.isAlpha

/-- Embeds the `enumerate` loop of `collect_candidates`, carrying the
current paragraph index `i`; `pyStrip p.text` is the loop's `txt`. -/
def collectAux (tok sentTok wordTok : String → List String) :
    Nat → List Paragraph → List Candidate
  | _, [] => []
  | i, p :: ps =>
    if (pyStrip p.text).isEmpty then collectAux tok sentTok wordTok (i + 1) ps
    else if MIN_WORDS < ((wordTok (pyStrip p.text)).filter pyIsAlpha).length then
      Candidate.make tok sentTok i (pyStrip p.text) ::
        collectAux tok sentTok wordTok (i + 1) ps
    else collectAux tok sentTok wordTok (i + 1) ps

/-- Embeds `collect_candidates`: the ordered candidates for paragraphs whose
stripped text is non-empty and has more than `MIN_WORDS` alphabetic words. -/
def collect_candidates (tok sentTok wordTok : String → List String)
    (paragraphs : List Paragraph) : List Candidate :=
  collectAux tok sentTok wordTok 0 paragraphs

theorem collectAux_idx_ge (tok sentTok wordTok : String → List String) :
    ∀ (ps : List Paragraph) (j : Nat), ∀ c ∈ collectAux tok sentTok wordTok j ps,
      j ≤ c.idx := by
  intro ps
  induction ps with
  | nil =>
    intro j c hc
    simp [collectAux] at hc
  | cons p ps ih =>
    intro j c hc
    unfold collectAux at hc
    split at hc
    · exact Nat.le_of_succ_le (ih (j + 1) c hc)
    · split at hc
      · rcases List.mem_cons.mp hc with h | h
        · subst h; exact Nat.le_refl j
        · exact Nat.le_of_succ_le (ih (j + 1) c h)
      · exact Nat.le_of_succ_le (ih (j + 1) c hc)

theorem collectAux_idx_lt (tok sentTok wordTok : String → List String) :
    ∀ (ps : List Paragraph) (j : Nat), ∀ c ∈ collectAux tok sentTok wordTok j ps,
      c.idx < j + ps.length := by
  intro ps
  induction ps with
  | nil =>
    intro j c hc
    simp [collectAux] at hc
  | cons p ps ih =>
    intro j c hc
    unfold collectAux at hc
    have hlen : (p :: ps).length = ps.length + 1 := rfl
    split at hc
    · have := ih (j + 1) c hc; omega
    · split at hc
      · rcases List.mem_cons.mp hc with h | h
        · subst h
          have : (Candidate.make tok sentTok j (pyStrip p.text)).idx = j := rfl
          simp [this]
        · have := ih (j + 1) c h; omega
      · have := ih (j + 1) c hc; omega

theorem collectAux_pairwise (tok sentTok wordTok : String → List String) :
    ∀ (ps : List Paragraph) (j : Nat),
      ((collectAux tok sentTok wordTok j ps).map Candidate.idx).Pairwise (· < ·) := by
  intro ps
  induction ps with
  | nil => intro j; simp [collectAux]
  | cons p ps ih =>
    intro j
    unfold collectAux
    split
    · exact ih (j + 1)
    · split
      · simp only [List.map_cons]
        refine List.Pairwise.cons ?_ (ih (j + 1))
        intro b hb
        rcases List.mem_map.mp hb with ⟨c, hc, rfl⟩
        have hge := collectAux_idx_ge tok sentTok wordTok ps (j + 1) c hc
        have hj : (Candidate.make tok sentTok j (pyStrip p.text)).idx = j := rfl
        rw [hj]
        omega
      · exact ih (j + 1)

theorem collectAux_mem_idx_iff (tok sentTok wordTok : String → List String) :
    ∀ (ps : List Paragraph) (j i : Nat) (p : Paragraph), ps[i]? = some p →
      ((∃ c ∈ collectAux tok sentTok wordTok j ps, c.idx = j + i) ↔
        (¬ (pyStrip p.text).isEmpty = true ∧
          MIN_WORDS < ((wordTok (pyStrip p.text)).filter pyIsAlpha).length)) := by
  intro ps
  induction ps with
  | nil =>
    intro j i p hp
    simp at hp
  | cons q ps ih =>
    intro j i p hp
    cases i with
    | zero =>
      rw [List.getElem?_cons_zero] at hp
      injection hp with hp
      subst hp
      unfold collectAux
      split
      · next hemp =>
        constructor
        · rintro ⟨c, hc, hidx⟩
          have := collectAux_idx_ge tok sentTok wordTok ps (j + 1) c hc
          omega
        · rintro ⟨h1, _⟩
          exact absurd hemp h1
      · next hemp =>
        split
        · next hcnt =>
          constructor
          · intro _
            exact ⟨hemp, hcnt⟩
          · intro _
            refine ⟨Candidate.make tok sentTok j (pyStrip q.text),
              List.mem_cons_self _ _, ?_⟩
            have hj : (Candidate.make tok sentTok j (pyStrip q.text)).idx = j := rfl
            omega
        · next hcnt =>
          constructor
          · rintro ⟨c, hc, hidx⟩
            have := collectAux_idx_ge tok sentTok wordTok ps (j + 1) c hc
            omega
          · rintro ⟨_, h2⟩
            exact absurd h2 hcnt
    | succ i =>
      rw [List.getElem?_cons_succ] at hp
      have heq : j + (i + 1) = (j + 1) + i := by omega
      unfold collectAux
      split
      · rw [heq]; exact ih (j + 1) i p hp
      · split
        · constructor
          · rintro ⟨c, hc, hidx⟩
            rcases List.mem_cons.mp hc with h | h
            · subst h
              have hj : (Candidate.make tok sentTok j (pyStrip q.text)).idx = j := rfl
              omega
            · exact (ih (j + 1) i p hp).mp ⟨c, h, by omega⟩
          · intro hcond
            rcases (ih (j + 1) i p hp).mpr hcond with ⟨c, hc, hidx⟩
            exact ⟨c, List.mem_cons_of_mem _ hc, by omega⟩
        · rw [heq]; exact ih (j + 1) i p hp

/-- C3: `collect_candidates` produces a Candidate for paragraph `i` exactly
when the paragraph's stripped text is non-empty and its count of purely
alphabetic tokens strictly exceeds `MIN_WORDS = 40`. -/
theorem C3_candidate_selection (tok sentTok wordTok : String → List String)
    (ps : List Paragraph) (i : Nat) (p : Paragraph) (hp : ps[i]? = some p) :
    (∃ c ∈ collect_candidates tok sentTok wordTok ps, c.idx = i) ↔
      (¬ (pyStrip p.text).isEmpty = true ∧
        MIN_WORDS < ((wordTok (pyStrip p.text)).filter pyIsAlpha).length) := by
  have h := collectAux_mem_idx_iff tok sentTok wordTok ps 0 i p hp
  simpa [collect_candidates] using h

/-- Witness for C3: a single paragraph whose word tokenization yields exactly
41 alphabetic tokens produces a Candidate at index 0. -/
theorem C3_candidate_selection_witness :
    (([⟨"Hi", []⟩] : List Paragraph)[0]? = some ⟨"Hi", []⟩) ∧
    (∃ c ∈ collect_candidates (fun _ => []) (fun _ => [])
      (fun _ => List.replicate 41 "a") [⟨"Hi", []⟩], c.idx = 0) :=
  ⟨rfl, (C3_candidate_selection (fun _ => []) (fun _ => [])
    (fun _ => List.replicate 41 "a") [⟨"Hi", []⟩] 0 ⟨"Hi", []⟩ rfl).mpr (by decide)⟩

/-- C9: `collect_candidates` is pure and deterministic (running it twice
yields the same list), its candidate indices are strictly increasing in
document order, and every index references an existing paragraph. -/
theorem C9_collect_pure_order (tok sentTok wordTok : String → List String)
    (ps : List Paragraph) :
    collect_candidates tok sentTok wordTok ps
        = collect_candidates tok sentTok wordTok ps ∧
    ((collect_candidates tok sentTok wordTok ps).map Candidate.idx).Pairwise
        (· < ·) ∧
    ∀ c ∈ collect_candidates tok sentTok wordTok ps, c.idx < ps.length := by
  refine ⟨rfl, collectAux_pairwise tok sentTok wordTok ps 0, ?_⟩
  intro c hc
  have := collectAux_idx_lt tok sentTok wordTok ps 0 c hc
  omega

/-- Witness for C9: concrete two-paragraph document, strictly increasing
candidate indices. -/
theorem C9_collect_pure_order_witness :
    ((collect_candidates (fun _ => []) (fun _ => [])
      (fun _ => List.replicate 41 "x")
      [⟨"A", []⟩, ⟨"B", []⟩]).map Candidate.idx).Pairwise (· < ·) :=
  (C9_collect_pure_order (fun _ => []) (fun _ => [])
    (fun _ => List.replicate 41 "x") [⟨"A", []⟩, ⟨"B", []⟩]).2.1

/-- C8: a Candidate built from text whose full tokenization is at most
`MAX_INPUT_TOKENS` carries the original text untouched. -/
theorem C8_within_budget_untouched (tok sentTok : String → List String)
    (i : Nat) (text : String) (h : (tok text).length ≤ MAX_INPUT_TOKENS) :
    (Candidate.make tok sentTok i text).truncated = text := by
  unfold Candidate.make
  simp only
  rw [if_neg (by omega)]

/-- Witness for C8: an empty tokenization is within budget, so the text
passes through untouched. -/
theorem C8_within_budget_untouched_witness :
    (((fun (_ : String) => ([] : List String)) "short text").length
        ≤ MAX_INPUT_TOKENS) ∧
    (Candidate.make (fun _ => []) (fun _ => []) 5 "short text").truncated
        = "short text" :=
  ⟨by decide, C8_within_budget_untouched (fun _ => []) (fun _ => []) 5
    "short text" (by decide)⟩

/-- C5: when the translation backend is invoked (stripped text non-empty)
and raises an error, `translate_en2zh` returns the original text. -/
theorem C5_translation_error_passthrough (trans : String → Option String)
    (text : String) (hinv : ¬ pyStrip text = "") (hfail : trans text = none) :
    translate_en2zh trans text = text := by
  unfold translate_en2zh
  rw [if_neg hinv, hfail]

/-- Witness for C5: a failing backend on non-whitespace text yields the
original text. -/
theorem C5_translation_error_passthrough_witness :
    (¬ pyStrip "Hello world" = "") ∧
    translate_en2zh (fun _ => none) "Hello world" = "Hello world" :=
  ⟨by decide, C5_translation_error_passthrough (fun _ => none) "Hello world"
    (by decide) rfl⟩

/-- C10: on empty-or-whitespace input `translate_en2zh` returns `""` with
zero backend invocations, and (for non-empty whitespace input) the result is
never the input passed through unchanged. -/
theorem C10_whitespace_no_backend (trans : String → Option String)
    (text : String) (hws : pyStrip text = "") :
    translate_en2zhI trans text = ("", 0) ∧
    (text ≠ "" → translate_en2zh trans text ≠ text) := by
  constructor
  · unfold translate_en2zhI
    rw [if_pos hws]
  · intro hne
    unfold translate_en2zh
    rw [if_pos hws]
    exact fun h => hne h.symm

/-- Witness for C10: two spaces strip to empty; the backend is not invoked,
the result is `""`, and the input is not passed through. -/
theorem C10_whitespace_no_backend_witness :
    (pyStrip "  " = "") ∧
    translate_en2zhI (fun s => some s) "  " = ("", 0) ∧
    translate_en2zh (fun s => some s) "  " ≠ "  " :=
  ⟨by decide, (C10_whitespace_no_backend (fun s => some s) "  " (by decide)).1,
    (C10_whitespace_no_backend (fun s => some s) "  " (by decide)).2
      (by decide)⟩

/-- Total token count of a list of sentences, as accumulated by the
truncation loop: the sum of each sentence's own tokenization length. -/
def sumTokens (tok : String → List String) : List String → Nat
  | [] => 0
  | s :: rest => (tok s).length + sumTokens tok rest

theorem truncLoop_budget (tok : String → List String) (maxTokens : Nat) :
    ∀ (sents : List String) (cur : Nat), cur ≤ maxTokens →
      cur + sumTokens tok (truncLoop tok maxTokens cur sents) ≤ maxTokens := by
  intro sents
  induction sents with
  | nil => intro cur h; simpa [truncLoop, sumTokens]
  | cons s rest ih =>
    intro cur h
    unfold truncLoop
    split
    · simpa [sumTokens]
    · next hfit =>
      have h2 : cur + (tok s).length ≤ maxTokens := by omega
      have h3 := ih (cur + (tok s).length) h2
      simp only [sumTokens] at h3 ⊢
      omega

theorem truncLoop_front (tok : String → List String) (maxTokens : Nat) :
    ∀ (sents : List String) (cur : Nat),
      truncLoop tok maxTokens cur sents <+: sents := by
  intro sents
  induction sents with
  | nil => intro cur; simp [truncLoop]
  | cons s rest ih =>
    intro cur
    unfold truncLoop
    split
    · exact List.nil_prefix
    · obtain ⟨t, ht⟩ := ih (cur + (tok s).length)
      exact ⟨t, by rw [List.cons_append, ht]⟩

theorem truncLoop_maximal (tok : String → List String) (maxTokens : Nat) :
    ∀ (sents pre : List String) (cur : Nat), pre <+: sents →
      cur + sumTokens tok pre ≤ maxTokens →
      pre.length ≤ (truncLoop tok maxTokens cur sents).length := by
  intro sents
  induction sents with
  | nil =>
    intro pre cur hpre _
    have hnil : pre = [] := List.prefix_nil.mp hpre
    subst hnil
    simp
  | cons s rest ih =>
    intro pre cur hpre hsum
    cases pre with
    | nil => simp
    | cons a pre =>
      obtain ⟨ha, hpre2⟩ := List.cons_prefix_cons.mp hpre
      subst ha
      unfold truncLoop
      split
      · next hover =>
        exfalso
        simp only [sumTokens] at hsum
        omega
      · next hover =>
        simp only [List.length_cons]
        have hrec := ih pre (cur + (tok a).length) hpre2
          (by simp only [sumTokens] at hsum; omega)
        omega

theorem joinSpace_tokens_le (tok : String → List String)
    (hsub : ∀ a b, (tok (a ++ " " ++ b)).length
      ≤ (tok a).length + (tok b).length) :
    ∀ (l : List String), l ≠ [] →
      (tok (joinSpace l)).length ≤ sumTokens tok l := by
  intro l
  induction l with
  | nil => intro h; exact absurd rfl h
  | cons s rest ih =>
    intro _
    cases rest with
    | nil => simp [joinSpace, sumTokens]
    | cons t rest2 =>
      have h1 : joinSpace (s :: t :: rest2) = s ++ " " ++ joinSpace (t :: rest2) :=
        rfl
      rw [h1]
      calc (tok (s ++ " " ++ joinSpace (t :: rest2))).length
          ≤ (tok s).length + (tok (joinSpace (t :: rest2))).length := hsub _ _
        _ ≤ (tok s).length + sumTokens tok (t :: rest2) := by
            have h2 := ih (by simp)
            omega
        _ = sumTokens tok (s :: t :: rest2) := by simp [sumTokens]

/-- C4: `truncate_text_by_sentences` keeps the longest prefix of sentences
whose accumulated per-sentence token counts stay within the budget: the kept
list is a prefix of the sentence split, its accumulated count is within the
budget, no longer prefix fits, and the result is the kept sentences joined
by single spaces with `"..."` appended — or the original text unchanged when
no sentence fits. -/
theorem C4_truncation_algorithm (tok sentTok : String → List String)
    (text : String) (maxTokens : Nat) :
    keptSentences tok sentTok text maxTokens <+: sentTok text ∧
    sumTokens tok (keptSentences tok sentTok text maxTokens) ≤ maxTokens ∧
    (∀ pre, pre <+: sentTok text → sumTokens tok pre ≤ maxTokens →
      pre.length ≤ (keptSentences tok sentTok text maxTokens).length) ∧
    (keptSentences tok sentTok text maxTokens = [] →
      truncate_text_by_sentences tok sentTok text maxTokens = text) ∧
    (keptSentences tok sentTok text maxTokens ≠ [] →
      truncate_text_by_sentences tok sentTok text maxTokens
        = joinSpace (keptSentences tok sentTok text maxTokens) ++ "...") := by
  refine ⟨truncLoop_front tok maxTokens (sentTok text) 0, ?_, ?_, ?_, ?_⟩
  · have h := truncLoop_budget tok maxTokens (sentTok text) 0 (Nat.zero_le _)
    simpa [keptSentences] using h
  · intro pre hpre hsum
    exact truncLoop_maximal tok maxTokens (sentTok text) pre 0 hpre
      (by omega)
  · intro hnil
    unfold truncate_text_by_sentences
    rw [hnil]
    rfl
  · intro hne
    unfold truncate_text_by_sentences
    rw [if_neg (by simpa [List.isEmpty_iff] using hne)]

/-- Witness for C4: two one-token sentences both fit a 1024 budget, and the
result is their space-join with the marker appended. -/
theorem C4_truncation_algorithm_witness :
    keptSentences (fun s => [s]) (fun _ => ["One.", "Two."]) "One. Two." 1024
        ≠ [] ∧
    truncate_text_by_sentences (fun s => [s]) (fun _ => ["One.", "Two."])
        "One. Two." 1024
      = joinSpace (keptSentences (fun s => [s]) (fun _ => ["One.", "Two."])
          "One. Two." 1024) ++ "..." :=
  ⟨by decide, (C4_truncation_algorithm (fun s => [s])
    (fun _ => ["One.", "Two."]) "One. Two." 1024).2.2.2.2 (by decide)⟩

/-- C1: for input exceeding the 1024-token budget (and a tokenizer that is
subadditive over single-space joins), truncation returns either the original
text unchanged (no sentence fits) or kept sentences whose joined tokenization
is within the budget, marker aside. -/
theorem C1_truncation_budget (tok sentTok : String → List String)
    (hsub : ∀ a b, (tok (a ++ " " ++ b)).length
      ≤ (tok a).length + (tok b).length)
    (text : String) (hbig : MAX_INPUT_TOKENS < (tok text).length) :
    truncate_text_by_sentences tok sentTok text MAX_INPUT_TOKENS = text ∨
    ((tok (joinSpace (keptSentences tok sentTok text MAX_INPUT_TOKENS))).length
        ≤ MAX_INPUT_TOKENS ∧
      truncate_text_by_sentences tok sentTok text MAX_INPUT_TOKENS
        = joinSpace (keptSentences tok sentTok text MAX_INPUT_TOKENS)
            ++ "...") := by
  by_cases hk : keptSentences tok sentTok text MAX_INPUT_TOKENS = []
  · left
    exact (C4_truncation_algorithm tok sentTok text MAX_INPUT_TOKENS).2.2.2.1 hk
  · right
    constructor
    · calc (tok (joinSpace (keptSentences tok sentTok text
              MAX_INPUT_TOKENS))).length
          ≤ sumTokens tok (keptSentences tok sentTok text MAX_INPUT_TOKENS) :=
            joinSpace_tokens_le tok hsub _ hk
        _ ≤ MAX_INPUT_TOKENS :=
            (C4_truncation_algorithm tok sentTok text MAX_INPUT_TOKENS).2.1
    · exact (C4_truncation_algorithm tok sentTok text MAX_INPUT_TOKENS).2.2.2.2
        hk

/-- Witness for C1: a constant tokenizer of 1025 tokens exceeds the budget
and is subadditive over joins; with no sentences the original text is
returned unchanged. -/
theorem C1_truncation_budget_witness :
    (MAX_INPUT_TOKENS
        < ((fun (_ : String) => List.replicate 1025 "t") "abc").length) ∧
    (truncate_text_by_sentences (fun _ => List.replicate 1025 "t")
        (fun _ => ([] : List String)) "abc" MAX_INPUT_TOKENS = "abc" ∨
      (((fun (_ : String) => List.replicate 1025 "t")
          (joinSpace (keptSentences (fun _ => List.replicate 1025 "t")
            (fun _ => ([] : List String)) "abc" MAX_INPUT_TOKENS))).length
            ≤ MAX_INPUT_TOKENS ∧
        truncate_text_by_sentences (fun _ => List.replicate 1025 "t")
          (fun _ => ([] : List String)) "abc" MAX_INPUT_TOKENS
          = joinSpace (keptSentences (fun _ => List.replicate 1025 "t")
              (fun _ => ([] : List String)) "abc" MAX_INPUT_TOKENS)
              ++ "...")) :=
  ⟨by simp only [List.length_replicate, MAX_INPUT_TOKENS]; omega,
    C1_truncation_budget (fun _ => List.replicate 1025 "t")
      (fun _ => ([] : List String))
      (fun a b => by simp only [List.length_replicate]; omega)
      "abc" (by simp only [List.length_replicate, MAX_INPUT_TOKENS]; omega)⟩

/-- Embeds the summary write-back `for c, out in zip(cands_slice, outs)` of
`batch_summarize`: the k-th output, stripped then translated, is written
into the summary field of the k-th candidate of the slice; candidates
beyond the outputs are left unchanged (as the in-place loop leaves them). -/
def setSummaries (trans : String → Option String) :
    List Candidate → List String → List Candidate
  | [], _ => []
  | c :: cs, [] => c :: cs
  | c :: cs, o :: os =>
    { c with summary_zh := translate_en2zh trans (pyStrip o) } ::
      setSummaries trans cs os

/-- Embeds the `for start in range(0, len(texts), BATCH_SIZE)` loop of
`batch_summarize`: each consecutive slice of `BATCH_SIZE` candidates has its
truncated texts submitted to the summarizer and the results written back
positionally. -/
def batchLoop (summ : List String → List String)
    (trans : String → Option String) : List Candidate → List Candidate
  | [] => []
  | c :: cs =>
    setSummaries trans (c :: cs.take (BATCH_SIZE - 1))
        (summ ((c :: cs.take (BATCH_SIZE - 1)).map Candidate.truncated)) ++
      batchLoop summ trans (cs.drop (BATCH_SIZE - 1))
termination_by cs => cs.length
decreasing_by simp [List.length_drop]; omega

/-- The successive argument lists passed to `SUMMARIZER` by the batch loop
(the backend call trace of `batch_summarize` on a non-empty candidate
list). -/
def callsLoop : List Candidate → List (List String)
  | [] => []
  | c :: cs =>
    (c :: cs.take (BATCH_SIZE - 1)).map Candidate.truncated ::
      callsLoop (cs.drop (BATCH_SIZE - 1))
termination_by cs => cs.length
decreasing_by simp [List.length_drop]; omega

/-- The backend call trace of `batch_summarize`: the early return
`if not cands: return` means an empty candidate list makes no call. -/
def summarizerCalls (cands : List Candidate) : List (List String) :=
  if cands.isEmpty then [] else callsLoop cands

/-- Embeds `batch_summarize`: early return on an empty candidate list,
otherwise the batch loop. The in-place mutation of the Python code is
modelled by returning the updated candidate list. -/
def batch_summarize (summ : List String → List String)
    (trans : String → Option String) (cands : List Candidate) :
    List Candidate :=
  if cands.isEmpty then cands else batchLoop summ trans cands

theorem batchLoop_nil (summ : List String → List String)
    (trans : String → Option String) : batchLoop summ trans [] = [] := by
  simp only [batchLoop]

theorem callsLoop_nil : callsLoop [] = [] := by
  simp only [callsLoop]

theorem batchLoop_cons (summ : List String → List String)
    (trans : String → Option String) (c0 : Candidate) (cs : List Candidate) :
    batchLoop summ trans (c0 :: cs)
      = setSummaries trans (c0 :: cs.take 3)
          (summ ((c0 :: cs.take 3).map Candidate.truncated)) ++
        batchLoop summ trans (cs.drop 3) := by
  simp only [show (3 : Nat) = BATCH_SIZE - 1 from rfl, batchLoop]

theorem callsLoop_cons (c0 : Candidate) (cs : List Candidate) :
    callsLoop (c0 :: cs)
      = (c0 :: cs.take 3).map Candidate.truncated :: callsLoop (cs.drop 3) := by
  simp only [show (3 : Nat) = BATCH_SIZE - 1 from rfl, callsLoop]

theorem setSummaries_length (trans : String → Option String) :
    ∀ (cs : List Candidate) (outs : List String),
      (setSummaries trans cs outs).length = cs.length := by
  intro cs
  induction cs with
  | nil => intro outs; cases outs <;> rfl
  | cons c cs ih =>
    intro outs
    cases outs with
    | nil => rfl
    | cons o os => simp [setSummaries, ih]

theorem setSummaries_getElem (trans : String → Option String) :
    ∀ (cs : List Candidate) (outs : List String) (k : Nat) (c : Candidate)
      (o : String), cs[k]? = some c → outs[k]? = some o →
      (setSummaries trans cs outs)[k]?
        = some { c with summary_zh := translate_en2zh trans (pyStrip o) } := by
  intro cs
  induction cs with
  | nil =>
    intro outs k c o hc _
    simp at hc
  | cons c0 cs ih =>
    intro outs k c o hc ho
    cases outs with
    | nil => simp at ho
    | cons o0 os =>
      cases k with
      | zero =>
        rw [List.getElem?_cons_zero] at hc ho
        injection hc with hc
        injection ho with ho
        subst hc
        subst ho
        simp [setSummaries]
      | succ k =>
        rw [List.getElem?_cons_succ] at hc ho
        have h := ih os k c o hc ho
        simpa [setSummaries] using h

theorem batchLoop_length_aux (summ : List String → List String)
    (trans : String → Option String) :
    ∀ (n : Nat) (cands : List Candidate), cands.length ≤ n →
      (batchLoop summ trans cands).length = cands.length := by
  intro n
  induction n with
  | zero =>
    intro cands h
    have hnil : cands = [] := List.eq_nil_of_length_eq_zero (Nat.le_zero.mp h)
    subst hnil
    rw [batchLoop_nil]
  | succ n ih =>
    intro cands h
    cases cands with
    | nil => rw [batchLoop_nil]
    | cons c0 cs =>
      rw [batchLoop_cons, List.length_append, setSummaries_length,
        ih (cs.drop 3) (by simp [List.length_drop] at h ⊢; omega)]
      simp [List.length_take, List.length_drop]
      omega

theorem batchLoop_length (summ : List String → List String)
    (trans : String → Option String) (cands : List Candidate) :
    (batchLoop summ trans cands).length = cands.length :=
  batchLoop_length_aux summ trans cands.length cands (Nat.le_refl _)

theorem callsLoop_flatten_aux :
    ∀ (n : Nat) (cands : List Candidate), cands.length ≤ n →
      (callsLoop cands).flatten = cands.map Candidate.truncated := by
  intro n
  induction n with
  | zero =>
    intro cands h
    have hnil : cands = [] := List.eq_nil_of_length_eq_zero (Nat.le_zero.mp h)
    subst hnil
    rw [callsLoop_nil]
    rfl
  | succ n ih =>
    intro cands h
    cases cands with
    | nil =>
      rw [callsLoop_nil]
      rfl
    | cons c0 cs =>
      rw [callsLoop_cons]
      simp only [List.flatten_cons]
      rw [ih (cs.drop 3) (by simp [List.length_drop] at h ⊢; omega)]
      rw [show c0 :: cs.take 3 = (c0 :: cs).take 4 from rfl,
        show cs.drop 3 = (c0 :: cs).drop 4 from rfl,
        ← List.map_append, List.take_append_drop]

theorem callsLoop_flatten (cands : List Candidate) :
    (callsLoop cands).flatten = cands.map Candidate.truncated :=
  callsLoop_flatten_aux cands.length cands (Nat.le_refl _)

theorem callsLoop_chunk_bound_aux :
    ∀ (n : Nat) (cands : List Candidate), cands.length ≤ n →
      ∀ chunk ∈ callsLoop cands, chunk ≠ [] ∧ chunk.length ≤ BATCH_SIZE := by
  intro n
  induction n with
  | zero =>
    intro cands h chunk hchunk
    have hnil : cands = [] := List.eq_nil_of_length_eq_zero (Nat.le_zero.mp h)
    subst hnil
    simp [callsLoop] at hchunk
  | succ n ih =>
    intro cands h chunk hchunk
    cases cands with
    | nil => simp [callsLoop] at hchunk
    | cons c0 cs =>
      rw [callsLoop_cons] at hchunk
      rcases List.mem_cons.mp hchunk with heq | hmem
      · subst heq
        refine ⟨by simp, ?_⟩
        have hB : BATCH_SIZE = 4 := rfl
        simp [List.length_take, hB]
      · exact ih (cs.drop 3) (by simp [List.length_drop] at h ⊢; omega) chunk hmem

theorem callsLoop_chunk_bound (cands : List Candidate) :
    ∀ chunk ∈ callsLoop cands, chunk ≠ [] ∧ chunk.length ≤ BATCH_SIZE :=
  callsLoop_chunk_bound_aux cands.length cands (Nat.le_refl _)

theorem callsLoop_full :
    ∀ (b : Nat) (cands : List Candidate),
      b + 1 < (callsLoop cands).length →
      ((callsLoop cands)[b]?).map List.length = some BATCH_SIZE := by
  intro b
  induction b with
  | zero =>
    intro cands hlt
    cases cands with
    | nil => simp [callsLoop] at hlt
    | cons c0 cs =>
      rw [callsLoop_cons] at hlt ⊢
      rw [List.getElem?_cons_zero]
      have h3 : 3 < cs.length := by
        by_contra hcon
        have hnil : cs.drop 3 = [] := List.drop_eq_nil_of_le (by omega)
        rw [hnil] at hlt
        simp [callsLoop] at hlt
      have hB : BATCH_SIZE = 4 := rfl
      simp [List.length_take, hB]
      omega
  | succ b ih =>
    intro cands hlt
    cases cands with
    | nil => simp [callsLoop] at hlt
    | cons c0 cs =>
      rw [callsLoop_cons] at hlt ⊢
      rw [List.getElem?_cons_succ]
      apply ih
      simpa using hlt

theorem batchLoop_positional (summ : List String → List String)
    (trans : String → Option String)
    (hlen : ∀ l, (summ l).length = l.length) :
    ∀ (b : Nat) (cands : List Candidate) (k : Nat) (c : Candidate),
      k < 4 → cands[4 * b + k]? = some c →
      ∃ chunk o, (callsLoop cands)[b]? = some chunk ∧
        (summ chunk)[k]? = some o ∧
        (batchLoop summ trans cands)[4 * b + k]?
          = some { c with summary_zh := translate_en2zh trans (pyStrip o) } := by
  intro b
  induction b with
  | zero =>
    intro cands k c hk hc
    simp only [Nat.mul_zero, Nat.zero_add] at hc ⊢
    cases cands with
    | nil => simp at hc
    | cons c0 cs =>
      have hkc : k < (c0 :: cs).length := by
        by_contra hcon
        rw [List.getElem?_eq_none (by omega)] at hc
        exact Option.noConfusion hc
      have hchunklen : ((c0 :: cs.take 3).map Candidate.truncated).length
          = min 4 (c0 :: cs).length := by
        simp [List.length_take]
        omega
      have hklt : k < ((c0 :: cs.take 3).map Candidate.truncated).length := by
        rw [hchunklen]
        simp only [List.length_cons] at hkc ⊢
        omega
      have houtlen :
          (summ ((c0 :: cs.take 3).map Candidate.truncated)).length
            = ((c0 :: cs.take 3).map Candidate.truncated).length :=
        hlen _
      obtain ⟨o, ho⟩ : ∃ o,
          (summ ((c0 :: cs.take 3).map Candidate.truncated))[k]? = some o :=
        ⟨_, List.getElem?_eq_getElem (by omega)⟩
      refine ⟨(c0 :: cs.take 3).map Candidate.truncated, o, ?_, ho, ?_⟩
      · rw [callsLoop_cons, List.getElem?_cons_zero]
      · have hck : (c0 :: cs.take 3)[k]? = some c := by
          rw [show c0 :: cs.take 3 = (c0 :: cs).take 4 from rfl,
            List.getElem?_take, if_pos hk]
          exact hc
        rw [batchLoop_cons,
          List.getElem?_append_left (by
            rw [setSummaries_length]
            simpa using hklt)]
        exact setSummaries_getElem trans _ _ k c o hck ho
  | succ b ih =>
    intro cands k c hk hc
    cases cands with
    | nil => simp at hc
    | cons c0 cs =>
      have hidx : 4 * (b + 1) + k = 4 + (4 * b + k) := by omega
      rw [hidx] at hc ⊢
      have hnlt : 4 + (4 * b + k) < (c0 :: cs).length := by
        by_contra hcon
        rw [List.getElem?_eq_none (by omega)] at hc
        exact Option.noConfusion hc
      have hcs4 : 4 ≤ cs.length := by
        simp only [List.length_cons] at hnlt
        omega
      have hfirstlen :
          (setSummaries trans (c0 :: cs.take 3)
            (summ ((c0 :: cs.take 3).map Candidate.truncated))).length = 4 := by
        rw [setSummaries_length]
        simp [List.length_take]
        omega
      have hdrop : (cs.drop 3)[4 * b + k]? = some c := by
        rw [List.getElem?_drop]
        rw [show 4 + (4 * b + k) = (3 + (4 * b + k)) + 1 from by omega] at hc
        rw [List.getElem?_cons_succ] at hc
        exact hc
      obtain ⟨chunk, o, h1, h2, h3⟩ := ih (cs.drop 3) k c hk hdrop
      refine ⟨chunk, o, ?_, h2, ?_⟩
      · rw [callsLoop_cons, List.getElem?_cons_succ]
        exact h1
      · rw [batchLoop_cons,
          List.getElem?_append_right (by rw [hfirstlen]; omega)]
        rw [hfirstlen]
        convert h3 using 2
        omega

/-- C2: `batch_summarize` makes no backend call on an empty candidate list;
on a non-empty list it submits the candidates' truncated texts in original
order in consecutive batches (each non-empty, of size at most `BATCH_SIZE`,
and of size exactly `BATCH_SIZE` for every batch but possibly the last), and
the k-th summary returned for batch b is written — stripped, then
translated — into the summary field of candidate `BATCH_SIZE * b + k`,
matched positionally. -/
theorem C2_batch_positional (summ : List String → List String)
    (trans : String → Option String)
    (hlen : ∀ l, (summ l).length = l.length) (cands : List Candidate) :
    (cands = [] → summarizerCalls cands = []) ∧
    (summarizerCalls cands).flatten = cands.map Candidate.truncated ∧
    (∀ chunk ∈ summarizerCalls cands, chunk ≠ [] ∧ chunk.length ≤ BATCH_SIZE) ∧
    (∀ b, b + 1 < (summarizerCalls cands).length →
      ((summarizerCalls cands)[b]?).map List.length = some BATCH_SIZE) ∧
    (batch_summarize summ trans cands).length = cands.length ∧
    (∀ b k c, k < BATCH_SIZE → cands[BATCH_SIZE * b + k]? = some c →
      ∃ chunk o, (summarizerCalls cands)[b]? = some chunk ∧
        (summ chunk)[k]? = some o ∧
        (batch_summarize summ trans cands)[BATCH_SIZE * b + k]?
          = some { c with
              summary_zh := translate_en2zh trans (pyStrip o) }) := by
  cases cands with
  | nil =>
    refine ⟨fun _ => rfl, rfl, ?_, ?_, rfl, ?_⟩
    · intro chunk hchunk
      simp [summarizerCalls] at hchunk
    · intro b hb
      simp [summarizerCalls] at hb
    · intro b k c _ hc
      simp at hc
  | cons c0 cs =>
    have hcalls : summarizerCalls (c0 :: cs) = callsLoop (c0 :: cs) := rfl
    have hbatch : batch_summarize summ trans (c0 :: cs)
        = batchLoop summ trans (c0 :: cs) := rfl
    have hB : BATCH_SIZE = 4 := rfl
    refine ⟨fun h => absurd h (by simp), ?_, ?_, ?_, ?_, ?_⟩
    · rw [hcalls]
      exact callsLoop_flatten (c0 :: cs)
    · rw [hcalls]
      exact callsLoop_chunk_bound (c0 :: cs)
    · rw [hcalls]
      exact fun b => callsLoop_full b (c0 :: cs)
    · rw [hbatch]
      exact batchLoop_length summ trans (c0 :: cs)
    · rw [hcalls, hbatch, hB]
      exact fun b k c hk hc =>
        batchLoop_positional summ trans hlen b (c0 :: cs) k c hk hc

/-- Witness for C2: five candidates, identity summarizer; the first summary
of the second batch lands in the fifth candidate. -/
theorem C2_batch_positional_witness :
    ∃ chunk o,
      (summarizerCalls [⟨0, "a", ""⟩, ⟨1, "b", ""⟩, ⟨2, "c", ""⟩,
          ⟨3, "d", ""⟩, ⟨4, "e", ""⟩])[1]? = some chunk ∧
      ((fun (l : List String) => l) chunk)[0]? = some o ∧
      (batch_summarize (fun l => l) (fun _ => none)
          [⟨0, "a", ""⟩, ⟨1, "b", ""⟩, ⟨2, "c", ""⟩, ⟨3, "d", ""⟩,
            ⟨4, "e", ""⟩])[BATCH_SIZE * 1 + 0]?
        = some { (⟨4, "e", ""⟩ : Candidate) with
            summary_zh := translate_en2zh (fun _ => none) (pyStrip o) } :=
  (C2_batch_positional (fun l => l) (fun _ => none) (fun _ => rfl)
    [⟨0, "a", ""⟩, ⟨1, "b", ""⟩, ⟨2, "c", ""⟩, ⟨3, "d", ""⟩,
      ⟨4, "e", ""⟩]).2.2.2.2.2 1 0 ⟨4, "e", ""⟩ (by decide) (by decide)

/-- Embeds `set_yahei`: set the YaHei font (both western and east-Asian
slots are modelled by the single `font` field), the bold flag, and the
default 11pt size on a run. -/
def set_yahei (r : Run) (bold : Bool) : Run :=
  { r with font := YAHEI, bold := bold, size := 11 }

/-- A run as created by `para.add_run(text)` (unformatted) and then
formatted by `set_yahei(run, bold)`. -/
def yaheiRun (text : String) (bold : Bool) : Run :=
  set_yahei { text := text, font := "", bold := false, size := 0 } bold

/-- Embeds `para.add_run`: append a run at the end of a paragraph. -/
def addRun (p : Paragraph) (r : Run) : Paragraph :=
  { p with runs := p.runs ++ [r] }

/-- The `idx2summary` dictionary of `process_docx`: the summary of the
candidate with the given paragraph index, if any (candidate indices are
strictly increasing, so the first match is the dictionary entry). -/
def idx2summary (tok sentTok wordTok : String → List String)
    (summ : List String → List String) (trans : String → Option String)
    (doc : List Paragraph) (i : Nat) : Option String :=
  ((batch_summarize summ trans
      (collect_candidates tok sentTok wordTok doc)).find?
    (fun c => c.idx == i)).map Candidate.summary_zh

/-- Embeds step 2-1 of the merge loop: `zh = translate_en2zh(txt)`, and the
translation run is appended only under `if zh:`. -/
def addTranslation (trans : String → Option String) (txt : String)
    (para : Paragraph) : Paragraph :=
  if translate_en2zh trans txt ≠ "" then
    addRun para (yaheiRun ("\n" ++ translate_en2zh trans txt) false)
  else para

/-- Embeds step 2-2 of the merge loop: the labelled bold summary run is
appended only under `if i in idx2summary and idx2summary[i]:`. -/
def addSummary (sumOf : Nat → Option String) (i : Nat)
    (para : Paragraph) : Paragraph :=
  match sumOf i with
  | some s =>
    if s ≠ "" then addRun para (yaheiRun ("\n段落总结：" ++ s) true) else para
  | none => para

/-- Embeds one iteration of the merge loop of `process_docx` on paragraph
`para` at index `i`: empty paragraphs are skipped (`if not txt: continue`);
otherwise the translation run and then the summary run are appended. -/
def mergePara (trans : String → Option String) (sumOf : Nat → Option String)
    (i : Nat) (para : Paragraph) : Paragraph :=
  if (pyStrip para.text).isEmpty then para
  else addSummary sumOf i (addTranslation trans (pyStrip para.text) para)

/-- Embeds the `for i, para in enumerate(doc.paragraphs)` merge loop. -/
def mergeAux (trans : String → Option String) (sumOf : Nat → Option String) :
    Nat → List Paragraph → List Paragraph
  | _, [] => []
  | i, p :: ps => mergePara trans sumOf i p :: mergeAux trans sumOf (i + 1) ps

/-- Embeds the paragraph-content effect of `process_docx`: collect
candidates, batch-summarize them, then walk the paragraphs in order,
appending translation and summary runs. Console printing and the docx file
round-trip (loading `path`, saving to the `_zh.docx` sibling) are I/O
outside the model; the result is the saved document's paragraph list. -/
def process_docx (tok sentTok wordTok : String → List String)
    (summ : List String → List String) (trans : String → Option String)
    (doc : List Paragraph) : List Paragraph :=
  mergeAux trans (idx2summary tok sentTok wordTok summ trans doc) 0 doc

/-- The translation runs the merge loop appends for stripped text `txt`:
one YaHei non-bold run when the translation is non-empty, none otherwise. -/
def translationRuns (trans : String → Option String) (txt : String) :
    List Run :=
  if translate_en2zh trans txt ≠ "" then
    [yaheiRun ("\n" ++ translate_en2zh trans txt) false]
  else []

/-- The summary runs the merge loop appends at paragraph index `i`: one
bold YaHei labelled run when index `i` has a candidate with a non-empty
summary, none otherwise. -/
def summaryRuns (sumOf : Nat → Option String) (i : Nat) : List Run :=
  match sumOf i with
  | some s => if s ≠ "" then [yaheiRun ("\n段落总结：" ++ s) true] else []
  | none => []

theorem mergePara_eq (trans : String → Option String)
    (sumOf : Nat → Option String) (i : Nat) (para : Paragraph) :
    mergePara trans sumOf i para
      = if (pyStrip para.text).isEmpty then para
        else { para with runs := para.runs
            ++ translationRuns trans (pyStrip para.text)
            ++ summaryRuns sumOf i } := by
  by_cases hemp : (pyStrip para.text).isEmpty
  · simp [mergePara, hemp]
  · by_cases hz : translate_en2zh trans (pyStrip para.text) = ""
    · cases hsum : sumOf i with
      | none =>
        simp [mergePara, addTranslation, addSummary, translationRuns,
          summaryRuns, addRun, hemp, hz, hsum]
      | some s =>
        by_cases hs : s = ""
        · simp [mergePara, addTranslation, addSummary, translationRuns,
            summaryRuns, addRun, hemp, hz, hsum, hs]
        · simp [mergePara, addTranslation, addSummary, translationRuns,
            summaryRuns, addRun, hemp, hz, hsum, hs]
    · cases hsum : sumOf i with
      | none =>
        simp [mergePara, addTranslation, addSummary, translationRuns,
          summaryRuns, addRun, hemp, hz, hsum]
      | some s =>
        by_cases hs : s = ""
        · simp [mergePara, addTranslation, addSummary, translationRuns,
            summaryRuns, addRun, hemp, hz, hsum, hs]
        · simp [mergePara, addTranslation, addSummary, translationRuns,
            summaryRuns, addRun, hemp, hz, hsum, hs, List.append_assoc]

theorem mergeAux_length (trans : String → Option String)
    (sumOf : Nat → Option String) :
    ∀ (ps : List Paragraph) (j : Nat),
      (mergeAux trans sumOf j ps).length = ps.length := by
  intro ps
  induction ps with
  | nil => intro j; rfl
  | cons p ps ih =>
    intro j
    simp [mergeAux, ih (j + 1)]

theorem mergeAux_getElem (trans : String → Option String)
    (sumOf : Nat → Option String) :
    ∀ (ps : List Paragraph) (j i : Nat),
      (mergeAux trans sumOf j ps)[i]?
        = (ps[i]?).map (mergePara trans sumOf (j + i)) := by
  intro ps
  induction ps with
  | nil => intro j i; simp [mergeAux]
  | cons p ps ih =>
    intro j i
    cases i with
    | zero => simp [mergeAux]
    | succ i =>
      simp only [mergeAux, List.getElem?_cons_succ]
      rw [ih (j + 1) i]
      have heq : j + 1 + i = j + (i + 1) := by omega
      rw [heq]

/-- C6: the merge step preserves paragraph count and order; every input
paragraph reappears at its own index with its original text intact and its
original runs as a prefix — content is only appended. -/
theorem C6_merge_preserves_paragraphs (tok sentTok wordTok : String → List String)
    (summ : List String → List String) (trans : String → Option String)
    (doc : List Paragraph) :
    (process_docx tok sentTok wordTok summ trans doc).length = doc.length ∧
    ∀ (i : Nat) (p : Paragraph), doc[i]? = some p →
      ∃ q, (process_docx tok sentTok wordTok summ trans doc)[i]? = some q ∧
        q.text = p.text ∧ ∃ new, q.runs = p.runs ++ new := by
  constructor
  · exact mergeAux_length trans _ doc 0
  · intro i p hp
    rw [process_docx, mergeAux_getElem trans _ doc 0 i, hp]
    refine ⟨mergePara trans _ (0 + i) p, rfl, ?_⟩
    rw [mergePara_eq]
    split
    · exact ⟨rfl, [], (List.append_nil p.runs).symm⟩
    · exact ⟨rfl, translationRuns trans (pyStrip p.text)
        ++ summaryRuns (idx2summary tok sentTok wordTok summ trans doc) (0 + i),
        by rw [List.append_assoc]⟩

/-- Witness for C6: one-paragraph document; the output paragraph keeps its
text and its runs are extended only by appending. -/
theorem C6_merge_preserves_paragraphs_witness :
    ([⟨"Hi", []⟩] : List Paragraph)[0]? = some ⟨"Hi", []⟩ ∧
    ∃ q, (process_docx (fun _ => []) (fun _ => []) (fun _ => [])
        (fun l => l) (fun _ => none) [⟨"Hi", []⟩])[0]? = some q ∧
      q.text = (⟨"Hi", []⟩ : Paragraph).text ∧
      ∃ new, q.runs = (⟨"Hi", []⟩ : Paragraph).runs ++ new :=
  ⟨by decide, (C6_merge_preserves_paragraphs (fun _ => []) (fun _ => [])
    (fun _ => []) (fun l => l) (fun _ => none) [⟨"Hi", []⟩]).2 0 ⟨"Hi", []⟩
    (by decide)⟩

/-- Counterexample to C7 as stated: paragraph `"Hello"` is non-empty, yet
with a translation backend returning an empty string the merge appends no
translation run at all — the code guards the append with `if zh:`. -/
theorem C7_counterexample_empty_translation :
    (process_docx (fun _ => []) (fun _ => []) (fun _ => [])
      (fun l => l) (fun _ => some "") [⟨"Hello", []⟩])[0]?
      = some ⟨"Hello", []⟩ := by
  decide

/-- C7 (amended): empty paragraphs are skipped untouched; a non-empty
paragraph gets the translation run (YaHei, not bold) appended exactly when
its translation is non-empty, followed by the labelled summary run (YaHei,
bold) exactly when its index has a candidate with a non-empty summary. -/
theorem C7_merge_run_annotations (tok sentTok wordTok : String → List String)
    (summ : List String → List String) (trans : String → Option String)
    (doc : List Paragraph) (i : Nat) (p : Paragraph) (hp : doc[i]? = some p) :
    ((pyStrip p.text).isEmpty →
      (process_docx tok sentTok wordTok summ trans doc)[i]? = some p) ∧
    (¬ (pyStrip p.text).isEmpty →
      ((process_docx tok sentTok wordTok summ trans doc)[i]?
        = some { p with
                 runs := p.runs
                   ++ translationRuns trans (pyStrip p.text)
                   ++ summaryRuns
                     (idx2summary tok sentTok wordTok summ trans doc) i } ∧
      (translate_en2zh trans (pyStrip p.text) ≠ "" →
        translationRuns trans (pyStrip p.text)
          = [yaheiRun ("\n" ++ translate_en2zh trans (pyStrip p.text)) false]) ∧
      (translate_en2zh trans (pyStrip p.text) = "" →
        translationRuns trans (pyStrip p.text) = []) ∧
      (∀ s, idx2summary tok sentTok wordTok summ trans doc i = some s →
        s ≠ "" →
        summaryRuns (idx2summary tok sentTok wordTok summ trans doc) i
          = [yaheiRun ("\n段落总结：" ++ s) true]) ∧
      (idx2summary tok sentTok wordTok summ trans doc i = none →
        summaryRuns (idx2summary tok sentTok wordTok summ trans doc) i
          = []))) := by
  have hout : (process_docx tok sentTok wordTok summ trans doc)[i]?
      = some (mergePara trans
          (idx2summary tok sentTok wordTok summ trans doc) (0 + i) p) := by
    rw [process_docx, mergeAux_getElem trans _ doc 0 i, hp]
    rfl
  rw [Nat.zero_add] at hout
  constructor
  · intro hemp
    rw [hout, mergePara_eq, if_pos hemp]
  · intro hemp
    refine ⟨?_, ?_, ?_, ?_, ?_⟩
    · rw [hout, mergePara_eq, if_neg hemp]
    · intro hz
      rw [translationRuns, if_pos hz]
    · intro hz
      rw [translationRuns, if_neg (by simp [hz])]
    · intro s hs hsne
      rw [summaryRuns, hs]
      simp [hsne]
    · intro hs
      rw [summaryRuns, hs]

/-- Witness for C7 (amended): a non-empty paragraph with a non-empty
translation gets exactly the translation run appended (no candidate, so no
summary run). -/
theorem C7_merge_run_annotations_witness :
    (¬ (pyStrip ("Hello" : String)).isEmpty) ∧
    (process_docx (fun _ => []) (fun _ => []) (fun _ => [])
        (fun l => l) (fun _ => some "你好") [⟨"Hello", []⟩])[0]?
      = some { (⟨"Hello", []⟩ : Paragraph) with
               runs := (⟨"Hello", []⟩ : Paragraph).runs
                 ++ translationRuns (fun _ => some "你好") (pyStrip "Hello")
                 ++ summaryRuns (idx2summary (fun _ => []) (fun _ => [])
                   (fun _ => []) (fun l => l) (fun _ => some "你好")
                   [⟨"Hello", []⟩]) 0 } :=
  ⟨by decide, ((C7_merge_run_annotations (fun _ => []) (fun _ => [])
    (fun _ => []) (fun l => l) (fun _ => some "你好") [⟨"Hello", []⟩] 0
    ⟨"Hello", []⟩ (by decide)).2 (by decide)).1⟩

end WebCrawl
